
import Mathlib

/-!
Verification of the smart-sorter classification-and-relocation engine.

The development shallowly embeds the Rust sources:
  * `config.rs`   : `Category`, `EXTENSION_MAP`, `get_category`, `get_default_category`
  * `file_ops.rs` : `generate_unique_path`, `move_file`, `move_file_with_dedup`,
                    `ensure_directory`, `get_extension`
  * `sorter.rs`   : `collect_files`, `is_category_folder`, `create_plans`,
                    `categorize_file`, `execute_dry_run`, `execute_move`, `run`

Paths are modelled as lists of components (`Path := List String`); a directory
tree is a list of entries, each a path together with its kind (regular file,
directory, or symbolic link).  Filesystem existence checks performed by
`generate_unique_path` are abstracted as a boolean oracle over candidate file
names, which the sorter-level code instantiates with the live tree.
-/

set_option maxHeartbeats 1000000

set_option maxRecDepth 100000


/-- The `Category` enum of `config.rs`. -/
inductive Category where
  | Images
  | Videos
  | Documents
  | Music
  | Archives
  | Code
  | Others

deriving DecidableEq, Repr

/-- `Category::folder_name` of `config.rs`. -/
def Category.folder_name : Category → String
  | .Images => "Images"
  | .Videos => "Videos"
  | .Documents => "Documents"
  | .Music => "Music"
  | .Archives => "Archives"
  | .Code => "Code"
  | .Others => "Others"

/-- `Category::all` of `config.rs`. -/
def Category.all : List Category :=
  [.Images, .Videos, .Documents, .Music, .Archives, .Code, .Others]

/-- The folder names of all categories (used by the traversal to recognise
category folders). -/
def catNames : List String := Category.all.map Category.folder_name

/-- The extension lists inserted into `EXTENSION_MAP` in `config.rs`, in
insertion order (Images, Videos, Documents, Music, Archives, Code). -/
def extPairs : List (String × Category) :=
  (["jpg", "jpeg", "png", "gif", "bmp", "svg", "webp", "ico", "tiff", "tif",
    "heic", "heif", "raw", "cr2", "nef", "arw", "dng", "psd", "ai", "eps"
   ].map (fun e => (e, Category.Images))) ++
  (["mp4", "avi", "mkv", "mov", "wmv", "flv", "webm", "m4v", "mpeg", "mpg",
    "3gp", "3g2", "vob", "ogv", "mts", "m2ts", "ts"
   ].map (fun e => (e, Category.Videos))) ++
  (["pdf", "doc", "docx", "xls", "xlsx", "ppt", "pptx", "txt", "rtf", "odt",
    "ods", "odp", "csv", "pages", "numbers", "key", "epub", "mobi", "djvu",
    "xps"].map (fun e => (e, Category.Documents))) ++
  (["mp3", "wav", "flac", "aac", "ogg", "wma", "m4a", "aiff", "aif", "ape",
    "alac", "opus", "mid", "midi"].map (fun e => (e, Category.Music))) ++
  (["zip", "rar", "7z", "tar", "gz", "bz2", "xz", "dmg", "iso", "tgz", "tbz2",
    "txz", "cab", "lzh", "lha", "z", "sit", "sitx"
   ].map (fun e => (e, Category.Archives))) ++
  (["rs", "py", "js", "ts", "jsx", "tsx", "html", "htm", "css", "scss",
    "sass", "less", "json", "xml", "yaml", "yml", "toml", "md", "markdown",
    "sh", "bash", "zsh", "fish", "c", "cpp", "cc", "cxx", "h", "hpp", "hxx",
    "go", "java", "kt", "kts", "scala", "rb", "php", "pl", "pm", "swift",
    "m", "mm", "sql", "r", "lua", "vim", "el", "clj", "cljs", "edn", "ex",
    "exs", "erl", "hrl", "hs", "lhs", "ml", "mli", "fs", "fsi", "fsx",
    "dockerfile", "makefile", "cmake", "gradle", "sbt", "cabal"
   ].map (fun e => (e, Category.Code)))

/-- `HashMap::insert` on an association list: overwrites an existing binding,
otherwise appends.  (The key "ts" occurs in both the Videos and the Code
lists; as in the Rust `HashMap`, the later insertion wins.) -/
def insertAssoc (m : List (String × Category)) (k : String) (v : Category) :
    List (String × Category) :=
  if (m.lookup k).isSome then
    m.map (fun p => if p.1 = k then (k, v) else p)
  else m ++ [(k, v)]

/-- The `EXTENSION_MAP` of `config.rs`, built by inserting `extPairs` in
order with `HashMap` overwrite semantics. -/
def EXTENSION_MAP : List (String × Category) :=
  extPairs.foldl (fun m p => insertAssoc m p.1 p.2) []

/-- Rust's `str::to_lowercase`, modelled character-wise (the extension table
only contains ASCII keys, for which this is exact). -/
def lowerStr (s : String) : String := String.mk (s.data.map Char.toLower)

/-- `get_category` of `config.rs`: lowercase the extension, look it up,
default to `Others`. -/
def get_category (extension : String) : Category :=
  (EXTENSION_MAP.lookup (lowerStr extension)).getD Category.Others

/-- `get_default_category` of `config.rs`. -/
def get_default_category : Category := Category.Others

/-- Scan a reversed character list for the first `.`: returns the characters
before it (the reversed extension) and after it (the reversed stem), or
`none` when there is no dot at all. -/
def splitDotRev : List Char → Option (List Char × List Char)
  | [] => none
  | c :: rest =>
    if c = '.' then some ([], rest)
    else (splitDotRev rest).map (fun p => (c :: p.1, p.2))

/-- Rust `Path::file_stem` / `Path::extension` on a plain file name, as used
in `generate_unique_path` (`file_ops.rs` lines 43-48): split at the final
dot; a name whose only dot is leading (e.g. `.gitignore`) has no extension
and is its own stem (the code's `unwrap_or(filename)` fallback). -/
def rustSplitName (filename : String) : String × Option String :=
  match splitDotRev filename.data.reverse with
  | none => (filename, none)
  | some (extRev, stemRev) =>
    if stemRev.isEmpty then (filename, none)
    else (String.mk stemRev.reverse, some (String.mk extRev.reverse))

/-- The candidate file name `"{stem}_{n}.{ext}"` (or `"{stem}_{n}"` without
extension) tried by `generate_unique_path` at counter value `n`. -/
def candName (stem : String) (ext : Option String) (n : Nat) : String :=
  match ext with
  | some e => stem ++ "_" ++ toString n ++ "." ++ e
  | none => stem ++ "_" ++ toString n

/-- The timestamp fallback name produced by `generate_unique_path` when the
counter exceeds 10000 (`file_ops.rs` lines 70-84): the counter-suffixed name
with the wall-clock millisecond timestamp inserted before the extension. -/
def fallbackName (stem : String) (ext : Option String) (counter ts : Nat) :
    String :=
  match ext with
  | some e =>
      stem ++ "_" ++ toString counter ++ "_" ++ toString ts ++ "." ++ e
  | none => stem ++ "_" ++ toString counter ++ "_" ++ toString ts

/-- The counter loop of `generate_unique_path` (`file_ops.rs` lines 51-86).
`ex name` models `dest_dir.join(name).exists()`.  The Rust loop is bounded:
after testing counter 10000 it returns the timestamp fallback, so the loop
body runs at most 10000 times; `fuel` makes that bound structural, with the
invariant `fuel + counter = 10001` for the initial call `fuel = 10000`,
`counter = 1`.  Fuel 0 coincides with the fallback the loop would return. -/
def gupLoop (ex : String → Bool) (stem : String) (ext : Option String)
    (ts : Nat) : Nat → Nat → String
  | 0, counter => fallbackName stem ext counter ts
  | fuel + 1, counter =>
    let name := candName stem ext counter
    if ex name = false then name
    else if counter + 1 > 10000 then fallbackName stem ext (counter + 1) ts
    else gupLoop ex stem ext ts fuel (counter + 1)

/-- `generate_unique_path` of `file_ops.rs`.  `ex name` models
`dest_dir.join(name).exists()` against the live destination directory, and
the returned string is the file name within `dest_dir` (the Rust function
returns `dest_dir.join` of it).  `ts` is the wall-clock millisecond
timestamp read in the exhaustion fallback. -/
def generate_unique_path (ex : String → Bool) (ts : Nat) (filename : String) :
    String :=
  if ex filename = false then filename
  else
    let stem := (rustSplitName filename).1
    let ext := (rustSplitName filename).2
    gupLoop ex stem ext ts 10000 1

/-- `Sorter::categorize_file` (`sorter.rs` lines 263-269) reduced to its
match on the optional extension: a present extension goes through
`get_category`, an absent one through `get_default_category`. -/
def classifyExt : Option String → Category
  | some ext => get_category ext
  | none => get_default_category

/-- Filesystem for the `move_file` fallback analysis: an association list
from path to file byte content. -/
abbrev CFS := List (String × String)

/-- Content of the file at `p`, when one exists. -/
def cfsGet (fs : CFS) (p : String) : Option String := fs.lookup p

/-- Remove the binding at `p`. -/
def cfsErase (fs : CFS) (p : String) : CFS := fs.filter (fun q => q.1 ≠ p)

/-- Bind `p` to content `c`, replacing any existing binding. -/
def cfsSet (fs : CFS) (p c : String) : CFS := cfsErase fs p ++ [(p, c)]

/-- `fs::rename`: atomic move.  `ok = false` injects an environment failure
(e.g. source and destination on different filesystems), which leaves the
tree unchanged; renaming a missing source also fails. -/
def renameOp (fs : CFS) (src dst : String) (ok : Bool) : Except Unit CFS :=
  if ok = false then .error ()
  else
    match cfsGet fs src with
    | none => .error ()
    | some c => .ok (cfsSet (cfsErase fs src) dst c)

/-- `fs::copy`: duplicate the source bytes at the destination.  `ok = false`
injects an environment failure; copying a missing source also fails. -/
def copyOp (fs : CFS) (src dst : String) (ok : Bool) : Except Unit CFS :=
  if ok = false then .error ()
  else
    match cfsGet fs src with
    | none => .error ()
    | some c => .ok (cfsSet fs dst c)

/-- `fs::remove_file`.  `ok = false` injects an environment failure. -/
def removeOp (fs : CFS) (p : String) (ok : Bool) : Except Unit CFS :=
  if ok = false then .error ()
  else
    match cfsGet fs p with
    | none => .error ()
    | some _ => .ok (cfsErase fs p)

/-- `move_file` of `file_ops.rs` (lines 116-155): try `fs::rename`; if it
fails, fall back to `fs::copy` then `fs::remove_file`, each `?`-propagating
its error.  Returns the operation result together with the filesystem state
at the moment of return. -/
def move_file (fs : CFS) (src dst : String)
    (renameOk copyOk removeOk : Bool) : Except Unit CFS × CFS :=
  match renameOp fs src dst renameOk with
  | .ok fs1 => (.ok fs1, fs1)
  | .error _ =>
    match copyOp fs src dst copyOk with
    | .error e => (.error e, fs)
    | .ok fs1 =>
      match removeOp fs1 src removeOk with
      | .error e => (.error e, fs1)
      | .ok fs2 => (.ok fs2, fs2)

/-- A filesystem path as a list of components. -/
abbrev FsPath := List String

/-- The kind of a directory entry.  Symbolic links are their own kind: the
traversal tests `is_symlink` before `is_file`/`is_dir`, so a link is never
treated as either. -/
inductive EKind where
  | file
  | dir
  | symlink

deriving DecidableEq, Repr

/-- One entry of the modelled tree. -/
structure Entry where
  path : FsPath
  kind : EKind

deriving DecidableEq, Repr

/-- A directory tree: the list of all existing entries, in filesystem
enumeration order. -/
abbrev FS := List Entry

/-- `Path::exists` (any kind). -/
def pathExists (fs : FS) (p : FsPath) : Bool :=
  fs.any (fun e => e.path = p)

/-- `fs::read_dir`: the entries whose parent is `d`, in tree order. -/
def readDir (fs : FS) (d : FsPath) : List Entry :=
  fs.filter (fun e => ¬ e.path.isEmpty ∧ e.path.dropLast = d)

/-- The last component of a path, as in
`path.file_name().and_then(|n| n.to_str()).unwrap_or("")`. -/
def lastName (p : FsPath) : String := p.getLast?.getD ""

/-- `Sorter::is_category_folder` (`sorter.rs` lines 224-236): does `p`'s
parent directory sit directly under the target directory and carry a
category folder name? -/
def is_category_folder (target p : FsPath) : Bool :=
  match (p.dropLast).getLast? with
  | some name => p.dropLast.dropLast = target && catNames.contains name
  | none => false

/-- Longest path length occurring in the tree; recursion deeper than this
finds no entries. -/
def maxPathLen (fs : FS) : Nat :=
  fs.foldr (fun e acc => max e.path.length acc) 0

/-- The body of `Sorter::collect_files` (`sorter.rs` lines 181-222),
structurally recursive on `fuel`.  Per entry of `d`: symbolic links are
skipped; files are kept unless `is_category_folder` holds of them;
directories are entered only in recursive mode and only when their own name
is not a category folder name.  Every recursive call moves from `d` to a
child of `d`, so `fuel ≥ maxPathLen fs + 1 - d.length` makes fuel 0
unreachable (at that depth `readDir` is empty); `collect_files` below
instantiates it that way. -/
def collectAux (fs : FS) (target : FsPath) (recur : Bool) :
    Nat → FsPath → List FsPath
  | 0, _ => []
  | fuel + 1, d =>
    ((readDir fs d).map (fun e =>
      match e.kind with
      | .symlink => []
      | .file =>
        if is_category_folder target e.path then [] else [e.path]
      | .dir =>
        if recur then
          if catNames.contains (lastName e.path) then []
          else collectAux fs target recur fuel e.path
        else [])).flatten

/-- `Sorter::collect_files` called on the target directory. -/
def collect_files (fs : FS) (target : FsPath) (recur : Bool) : List FsPath :=
  collectAux fs target recur (maxPathLen fs + 1) target

/-- `get_extension` of `file_ops.rs` (lines 206-210): the extension of the
path's file name, lowercased; `none` when absent. -/
def pathExtension (p : FsPath) : Option String :=
  ((rustSplitName (lastName p)).2).map lowerStr

/-- `Sorter::categorize_file` (`sorter.rs` lines 263-269). -/
def categorize_file (p : FsPath) : Category :=
  classifyExt (pathExtension p)

/-- `FilePlan` of `sorter.rs`. -/
structure FilePlan where
  source : FsPath
  destination : FsPath
  category : Category
  has_conflict : Bool

deriving DecidableEq, Repr

/-- `MoveResult` of `file_ops.rs`. -/
structure MoveResult where
  source : FsPath
  destination : FsPath
  was_renamed : Bool

deriving DecidableEq, Repr

/-- `SortStats` of `sorter.rs`; `category_counts` is the `HashMap` as an
association list in insertion order. -/
structure SortStats where
  total_files : Nat
  moved_files : Nat
  renamed_files : Nat
  skipped_files : Nat
  error_count : Nat
  category_counts : List (Category × Nat)

deriving DecidableEq, Repr

/-- `SortStats::default()` with `total_files` set, as both executors do
first. -/
def SortStats.init (total : Nat) : SortStats := ⟨total, 0, 0, 0, 0, []⟩

/-- `*stats.category_counts.entry(category).or_insert(0) += 1`. -/
def bumpCat (m : List (Category × Nat)) (c : Category) :
    List (Category × Nat) :=
  if (m.lookup c).isSome then
    m.map (fun p => if p.1 = c then (p.1, p.2 + 1) else p)
  else m ++ [(c, 1)]

/-- `Sorter::create_plans` (`sorter.rs` lines 238-261): one plan per
collected file, with the prospective (pre-dedup) destination
`target/category_folder/filename` and the conflict flag testing that exact
path's existence at plan time. -/
def create_plans (fs : FS) (target : FsPath) (files : List FsPath) :
    List FilePlan :=
  files.map (fun file =>
    let category := categorize_file file
    let dest_dir := target ++ [category.folder_name]
    let filename := (file.getLast?).getD "unknown"
    let destination := dest_dir ++ [filename]
    { source := file, destination := destination, category := category,
      has_conflict := pathExists fs destination })

/-- `ensure_directory` of `file_ops.rs` (lines 96-103): create the
directory unless the path already exists (of any kind — the code only tests
`exists()`).  I/O failures of `create_dir_all` are outside the model. -/
def ensure_directory (fs : FS) (p : FsPath) : FS :=
  if pathExists fs p then fs else fs ++ [Entry.mk p .dir]

/-- Tree-level effect of a successful `move_file` (rename, or its
copy-then-delete fallback — both leave the same final tree): the source
entry is removed and the destination file entry appears.  Fails when the
source is not an existing regular file, the one per-file failure the tree
model expresses. -/
def relocateFile (fs : FS) (src dst : FsPath) : Except String FS :=
  if Entry.mk src .file ∈ fs then
    .ok ((fs.filter (fun e => e.path ≠ src)) ++ [Entry.mk dst .file])
  else .error "move failed"

/-- `move_file_with_dedup` of `file_ops.rs` (lines 167-197): take the file
name, ensure the destination directory, resolve the final name through
`generate_unique_path` against the live tree, record whether it differs
from the original destination, then move. -/
def move_file_with_dedup (fs : FS) (ts : Nat) (source dest_dir : FsPath) :
    Except String (MoveResult × FS) :=
  match source.getLast? with
  | none => .error "Invalid filename"
  | some filename =>
    let fs1 := ensure_directory fs dest_dir
    let finalName := generate_unique_path
      (fun n => pathExists fs1 (dest_dir ++ [n])) ts filename
    let original_dest := dest_dir ++ [filename]
    let final_dest := dest_dir ++ [finalName]
    match relocateFile fs1 source final_dest with
    | .error e => .error e
    | .ok fs2 =>
      .ok ({ source := source, destination := final_dest,
             was_renamed := decide (final_dest ≠ original_dest) }, fs2)

/-- One iteration of the `execute_move` loop (`sorter.rs` lines 349-401):
on success bump the category count, the moved counter and (if dedup
renamed) the renamed counter; on failure bump only `error_count` and leave
the tree as it was — then continue with the next plan either way. -/
def execStep (target : FsPath) (ts : Nat) (st : SortStats × FS)
    (plan : FilePlan) : SortStats × FS :=
  let dest_dir := target ++ [plan.category.folder_name]
  match move_file_with_dedup st.2 ts plan.source dest_dir with
  | .ok (result, fs') =>
    ({ st.1 with
        category_counts := bumpCat st.1.category_counts plan.category,
        renamed_files :=
          if result.was_renamed then st.1.renamed_files + 1
          else st.1.renamed_files,
        moved_files := st.1.moved_files + 1 }, fs')
  | .error _ =>
    ({ st.1 with error_count := st.1.error_count + 1 }, st.2)

/-- The pre-creation pass of `execute_move` (`sorter.rs` lines 340-347):
ensure each category folder that will receive at least one file. -/
def preCreateDirs (fs : FS) (target : FsPath) (plans : List FilePlan) : FS :=
  Category.all.foldl (fun acc c =>
    if plans.any (fun p => p.category = c) then
      ensure_directory acc (target ++ [c.folder_name])
    else acc) fs

/-- `Sorter::execute_move` (`sorter.rs` lines 336-404). -/
def execute_move (fs : FS) (target : FsPath) (ts : Nat)
    (plans : List FilePlan) : SortStats × FS :=
  List.foldl (execStep target ts)
    (SortStats.init plans.length, preCreateDirs fs target plans) plans

/-- One iteration of the `execute_dry_run` loop (`sorter.rs` lines
276-330): bump the category count; compute the displayed final destination,
consulting `generate_unique_path` against the live tree when the plan has a
conflict; bump `renamed_files` when a conflict was flagged, and
`moved_files` always; record the displayed (source, destination) line.  The
tree component of the state is read and returned untouched — the loop body
contains no write operation. -/
def dryStep (target : FsPath) (ts : Nat)
    (st : (SortStats × List (FsPath × FsPath)) × FS) (plan : FilePlan) :
    (SortStats × List (FsPath × FsPath)) × FS :=
  let fs := st.2
  let dest_dir := target ++ [plan.category.folder_name]
  let stats1 := { st.1.1 with
    category_counts := bumpCat st.1.1.category_counts plan.category }
  let filename := (plan.source.getLast?).getD "unknown"
  let final_dest :=
    if plan.has_conflict then
      dest_dir ++ [generate_unique_path
        (fun n => pathExists fs (dest_dir ++ [n])) ts filename]
    else dest_dir ++ [filename]
  let stats2 :=
    if plan.has_conflict then
      { stats1 with renamed_files := stats1.renamed_files + 1 }
    else stats1
  (({ stats2 with moved_files := stats2.moved_files + 1 },
    st.1.2 ++ [(plan.source, final_dest)]), fs)

/-- `Sorter::execute_dry_run` (`sorter.rs` lines 271-333), returning the
statistics, the displayed plan lines, and the (threaded) tree. -/
def execute_dry_run (fs : FS) (target : FsPath) (ts : Nat)
    (plans : List FilePlan) : (SortStats × List (FsPath × FsPath)) × FS :=
  List.foldl (dryStep target ts) ((SortStats.init plans.length, []), fs) plans

/-- `SorterConfig` of `sorter.rs`. -/
structure SorterConfig where
  target_dir : FsPath
  dry_run : Bool
  recursive : Bool

deriving DecidableEq, Repr

/-- `Path::is_dir` in the tree model. -/
def isDir (fs : FS) (p : FsPath) : Bool :=
  fs.any (fun e => e = Entry.mk p .dir)

/-- `Sorter::run` (`sorter.rs` lines 117-179): precondition checks (target
exists and is a directory; the readability probe cannot fail in the model),
collection, early return with default statistics when no file was found,
planning, then one of the two executors. -/
def runSorter (fs : FS) (cfg : SorterConfig) (ts : Nat) :
    Except String (SortStats × FS) :=
  if pathExists fs cfg.target_dir = false then
    .error "Target directory does not exist"
  else if isDir fs cfg.target_dir = false then
    .error "Target path is not a directory"
  else if (collect_files fs cfg.target_dir cfg.recursive).isEmpty then
    .ok (SortStats.init 0, fs)
  else if cfg.dry_run then
    .ok ((execute_dry_run fs cfg.target_dir ts (create_plans fs
        cfg.target_dir (collect_files fs cfg.target_dir
          cfg.recursive))).1.1,
      (execute_dry_run fs cfg.target_dir ts (create_plans fs cfg.target_dir
        (collect_files fs cfg.target_dir cfg.recursive))).2)
  else
    .ok (execute_move fs cfg.target_dir ts (create_plans fs cfg.target_dir
      (collect_files fs cfg.target_dir cfg.recursive)))

/-- The C2 scenario tree: target `r` containing `photo.jpg`, `doc.pdf`,
`note` (no extension) and a pre-existing `Images/photo.jpg`. -/
def fs0C2 : FS :=
  [⟨["r"], .dir⟩, ⟨["r", "photo.jpg"], .file⟩, ⟨["r", "doc.pdf"], .file⟩,
   ⟨["r", "note"], .file⟩, ⟨["r", "Images"], .dir⟩,
   ⟨["r", "Images", "photo.jpg"], .file⟩]

/-- The tree after the C2 execute run: `Documents` and `Others` created,
the three files relocated, `photo.jpg` renamed to `photo_1.jpg`. -/
def fs1C2 : FS :=
  [⟨["r"], .dir⟩, ⟨["r", "Images"], .dir⟩,
   ⟨["r", "Images", "photo.jpg"], .file⟩, ⟨["r", "Documents"], .dir⟩,
   ⟨["r", "Others"], .dir⟩, ⟨["r", "Images", "photo_1.jpg"], .file⟩,
   ⟨["r", "Documents", "doc.pdf"], .file⟩, ⟨["r", "Others", "note"], .file⟩]

/-- The C8 counterexample tree: a nested directory named `Images` two
levels below the target, containing a file; no symlinks and no top-level
category folders anywhere. -/
def cexFS : FS :=
  [⟨["r"], .dir⟩, ⟨["r", "sub"], .dir⟩, ⟨["r", "sub", "Images"], .dir⟩,
   ⟨["r", "sub", "Images", "x.txt"], .file⟩]

example : get_category "PNG" = Category.Images := by decide

example : get_category "ts" = Category.Code := by decide

example : get_category "xyz" = Category.Others := by decide

example : rustSplitName "report.pdf" = ("report", some "pdf") := by decide

example : rustSplitName "a.tar.gz" = ("a.tar", some "gz") := by decide

example : rustSplitName "README" = ("README", none) := by decide

example : rustSplitName ".gitignore" = (".gitignore", none) := by decide

example :
    generate_unique_path (fun s => s ∈ ["test.txt"]) 0 "test.txt"
      = "test_1.txt" := by decide

example :
    generate_unique_path
      (fun s => s ∈ ["test.txt", "test_1.txt", "test_2.txt"]) 0 "test.txt"
      = "test_3.txt" := by decide

example :
    generate_unique_path (fun s => s ∈ ["README"]) 0 "README"
      = "README_1" := by decide

example :
    generate_unique_path (fun s => s ∈ ["x.txt"]) 0 "other.txt"
      = "other.txt" := by decide

/-- If the counter loop starts at `counter` with enough fuel, every
candidate from `counter` up to (but excluding) `n` is taken, and candidate
`n ≤ 10000` is free, the loop returns candidate `n`. -/
theorem gupLoop_finds (ex : String → Bool) (stem : String) (ext : Option String)
    (ts : Nat) :
    ∀ fuel counter n : Nat, counter ≤ n → n + 1 ≤ counter + fuel →
      n ≤ 10000 →
      (∀ m, counter ≤ m → m < n → ex (candName stem ext m) = true) →
      ex (candName stem ext n) = false →
      gupLoop ex stem ext ts fuel counter = candName stem ext n := by
  intro fuel
  induction fuel with
  | zero =>
    intro counter n h1 h2 _ _ _
    omega
  | succ fuel ih =>
    intro counter n h1 h2 h3 hall hfree
    by_cases hc : counter = n
    · subst hc
      simp [gupLoop, hfree]
    · have hlt : counter < n := lt_of_le_of_ne h1 hc
      have htaken : ex (candName stem ext counter) = true :=
        hall counter le_rfl hlt
      have hng : ¬ (counter + 1 > 10000) := by omega
      simp only [gupLoop, htaken]
      simp only [hng, if_false, Bool.true_eq_false, if_true]
      exact ih (counter + 1) n hlt (by omega) h3
        (fun m hm1 hm2 => hall m (by omega) hm2) hfree

/-- If every candidate from `counter` through 10000 is taken, the loop
degrades to the timestamp fallback at counter value 10001. -/
theorem gupLoop_exhausts (ex : String → Bool) (stem : String)
    (ext : Option String) (ts : Nat) :
    ∀ fuel counter : Nat, counter + fuel = 10001 → 1 ≤ counter →
      (∀ m, counter ≤ m → m ≤ 10000 → ex (candName stem ext m) = true) →
      gupLoop ex stem ext ts fuel counter = fallbackName stem ext 10001 ts := by
  intro fuel
  induction fuel with
  | zero =>
    intro counter h1 _ _
    have hc : counter = 10001 := by omega
    subst hc
    rfl
  | succ fuel ih =>
    intro counter h1 h2 hall
    have hc : counter ≤ 10000 := by omega
    have htaken : ex (candName stem ext counter) = true :=
      hall counter le_rfl hc
    simp only [gupLoop, htaken]
    by_cases hend : counter + 1 > 10000
    · have hceq : counter = 10000 := by omega
      subst hceq
      simp [hend]
    · simp only [hend, if_false, Bool.true_eq_false, if_true]
      exact ih (counter + 1) (by omega) (by omega)
        (fun m hm1 hm2 => hall m (by omega) hm2)

example :
    gupLoop (fun _ => true) "a" (some "txt") 3 10000 1
      = fallbackName "a" (some "txt") 10001 3 :=
  gupLoop_exhausts _ "a" (some "txt") 3 10000 1 (by omega) le_rfl
    (fun m h1 h2 => rfl)

/-- C1: for every destination-directory state (existence oracle `ex`) and
filename: if `dest_dir/filename` does not exist it is returned unchanged;
otherwise the resolver returns `{stem}_{n}.{ext}` (resp. `{stem}_{n}`
without extension) for the smallest `n ≥ 1` whose candidate does not exist,
provided that smallest `n` is at most 10000. -/
theorem generate_unique_path_correct (ex : String → Bool) (ts : Nat)
    (f : String) :
    (ex f = false → generate_unique_path ex ts f = f) ∧
    (∀ n : Nat, ex f = true → 1 ≤ n → n ≤ 10000 →
      (∀ m, 1 ≤ m → m < n →
        ex (candName (rustSplitName f).1 (rustSplitName f).2 m) = true) →
      ex (candName (rustSplitName f).1 (rustSplitName f).2 n) = false →
      generate_unique_path ex ts f
        = candName (rustSplitName f).1 (rustSplitName f).2 n) := by
  constructor
  · intro h
    simp [generate_unique_path, h]
  · intro n hex h1 h10k hall hfree
    simp only [generate_unique_path, hex, Bool.true_eq_false, if_false]
    exact gupLoop_finds ex _ _ ts 10000 1 n h1 (by omega) h10k
      (fun m hm1 hm2 => hall m hm1 hm2) hfree

theorem generate_unique_path_correct_witness :
    generate_unique_path (fun s => s ∈ ["x.txt"]) 0 "other.txt" = "other.txt"
    ∧ generate_unique_path (fun s => s ∈ ["test.txt", "test_1.txt"]) 0
        "test.txt" = "test_2.txt" := by
  constructor
  · exact (generate_unique_path_correct (fun s => s ∈ ["x.txt"]) 0
      "other.txt").1 (by decide)
  · refine (generate_unique_path_correct (fun s => s ∈ ["test.txt", "test_1.txt"])
      0 "test.txt").2 2 (by decide) (by decide) (by decide) ?_ (by decide)
    intro m hm1 hm2
    have hm : m = 1 := by omega
    subst hm
    decide

/-- C4: the resolver is a total function (it is defined as one) and never
returns an error; when the destination name and all 10000 counter
candidates exist, it does not fail but returns the counter-suffixed name at
counter 10001 with the wall-clock millisecond timestamp appended before the
extension. -/
theorem generate_unique_path_exhaustion (ex : String → Bool) (ts : Nat)
    (f : String) (hex : ex f = true)
    (hall : ∀ m, 1 ≤ m → m ≤ 10000 →
      ex (candName (rustSplitName f).1 (rustSplitName f).2 m) = true) :
    generate_unique_path ex ts f
      = fallbackName (rustSplitName f).1 (rustSplitName f).2 10001 ts := by
  simp only [generate_unique_path, hex, Bool.true_eq_false, if_false]
  exact gupLoop_exhausts ex _ _ ts 10000 1 (by omega) le_rfl
    (fun m hm1 hm2 => hall m hm1 hm2)

theorem generate_unique_path_exhaustion_witness :
    generate_unique_path (fun _ => true) 7 "a.txt"
      = fallbackName "a" (some "txt") 10001 7 := by
  rw [generate_unique_path_exhaustion (fun _ => true) 7 "a.txt" rfl
    (fun m hm1 hm2 => rfl)]
  decide

/-- C3: classification is a total pure function: an absent extension yields
`Others`; any string whose lowercasing is not a key of the extension table
yields `Others`; and classification only depends on the lowercased string,
so case permutations of an extension classify identically. -/
theorem classify_total_and_case_insensitive :
    (classifyExt none = Category.Others) ∧
    (∀ s, EXTENSION_MAP.lookup (lowerStr s) = none →
      get_category s = Category.Others) ∧
    (∀ s t, lowerStr s = lowerStr t → get_category s = get_category t) := by
  refine ⟨rfl, ?_, ?_⟩
  · intro s h
    simp [get_category, h]
  · intro s t h
    simp [get_category, h]

theorem classify_total_witness :
    (classifyExt none = Category.Others) ∧
    (EXTENSION_MAP.lookup (lowerStr "zzz") = none ∧
      get_category "zzz" = Category.Others) ∧
    (lowerStr "PNG" = lowerStr "PnG" ∧
      get_category "PNG" = get_category "PnG" ∧
      get_category "png" = get_category "PnG") :=
  ⟨classify_total_and_case_insensitive.1,
   ⟨by decide, classify_total_and_case_insensitive.2.1 "zzz" (by decide)⟩,
   ⟨by decide, classify_total_and_case_insensitive.2.2 "PNG" "PnG" (by decide),
    classify_total_and_case_insensitive.2.2 "png" "PnG" (by decide)⟩⟩

/-- C7: in the copy-then-delete fallback (rename already failed), a failing
copy step makes `move_file` return the copy error with the filesystem as it
was — in particular the source file is intact; and whenever the fallback
runs and the source's content afterwards differs at all from before, the
copy step succeeded first (the source is only deleted after a successful
copy). -/
theorem move_file_copy_fail_leaves_source (fs : CFS) (src dst : String)
    (renameOk copyOk removeOk : Bool)
    (hre : renameOp fs src dst renameOk = .error ()) :
    (copyOp fs src dst copyOk = .error () →
      move_file fs src dst renameOk copyOk removeOk = (.error (), fs)) ∧
    (∀ r fs', move_file fs src dst renameOk copyOk removeOk = (r, fs') →
      cfsGet fs' src ≠ cfsGet fs src →
      ∃ fsc, copyOp fs src dst copyOk = .ok fsc) := by
  constructor
  · intro hco
    unfold move_file
    rw [hre, hco]
  · intro r fs' hmv hdiff
    unfold move_file at hmv
    rw [hre] at hmv
    cases hcp : copyOp fs src dst copyOk with
    | error e =>
      rw [hcp] at hmv
      cases hmv
      exact absurd rfl hdiff
    | ok fsc => exact ⟨fsc, rfl⟩

theorem move_file_copy_fail_witness :
    move_file [("a.txt", "data")] "a.txt" "b.txt" false false true
      = (.error (), [("a.txt", "data")]) :=
  (move_file_copy_fail_leaves_source [("a.txt", "data")] "a.txt" "b.txt"
    false false true rfl).1 rfl

example :
    collect_files
      [⟨["r"], .dir⟩, ⟨["r", "a.txt"], .file⟩, ⟨["r", "sub"], .dir⟩,
       ⟨["r", "sub", "b.txt"], .file⟩, ⟨["r", "ln"], .symlink⟩]
      ["r"] false = [["r", "a.txt"]] := by decide

example :
    collect_files
      [⟨["r"], .dir⟩, ⟨["r", "a.txt"], .file⟩, ⟨["r", "sub"], .dir⟩,
       ⟨["r", "sub", "b.txt"], .file⟩, ⟨["r", "Images"], .dir⟩,
       ⟨["r", "Images", "c.jpg"], .file⟩]
      ["r"] true = [["r", "a.txt"], ["r", "sub", "b.txt"]] := by decide

example :
    collect_files
      [⟨["r"], .dir⟩, ⟨["r", "sub"], .dir⟩, ⟨["r", "sub", "Images"], .dir⟩,
       ⟨["r", "sub", "Images", "x.txt"], .file⟩]
      ["r"] true = [] := by decide

theorem mem_readDir {fs : FS} {d : FsPath} {e : Entry} :
    e ∈ readDir fs d ↔ e ∈ fs ∧ e.path ≠ [] ∧ e.path.dropLast = d := by
  simp [readDir, List.mem_filter, List.isEmpty_iff]

theorem child_take {p d : FsPath} (hne : p ≠ []) (hdl : p.dropLast = d) :
    p.length = d.length + 1 ∧ p.take d.length = d := by
  have hlen : d.length = p.length - 1 := by
    rw [← hdl, List.length_dropLast]
  have hpos : 0 < p.length := List.length_pos.mpr hne
  constructor
  · omega
  · rw [hlen, ← List.dropLast_eq_take, hdl]

theorem catNames_contains_folder (c : Category) :
    catNames.contains (Category.folder_name c) = true := by
  cases c <;> decide

theorem dropLast_ne_self {t : FsPath} (h : t ≠ []) : t.dropLast ≠ t := by
  intro he
  have hl := List.length_dropLast t
  rw [he] at hl
  have : 0 < t.length := List.length_pos.mpr h
  omega

/-- `is_category_folder` never holds of an immediate child of the target:
its parent is the target itself and the target's parent cannot again be the
target. -/
theorem is_category_folder_child {t f : FsPath} (hdl : f.dropLast = t) :
    is_category_folder t f = false := by
  unfold is_category_folder
  rw [hdl]
  cases ht : t.getLast? with
  | none => rfl
  | some name =>
    have hne : t ≠ [] := by
      intro h
      subst h
      simp at ht
    have hd : t.dropLast ≠ t := dropLast_ne_self hne
    simp [hd]

/-- Membership characterisation of the non-recursive traversal: exactly the
immediate (non-symlink) file children of `d` that do not sit in a category
folder. -/
theorem mem_collectAux_nonrec (fs : FS) (t : FsPath) (fuel : Nat)
    (d f : FsPath) :
    f ∈ collectAux fs t false (fuel + 1) d ↔
      Entry.mk f .file ∈ fs ∧ f ≠ [] ∧ f.dropLast = d ∧
      is_category_folder t f = false := by
  constructor
  · intro hf
    rw [collectAux] at hf
    simp only [List.mem_flatten, List.mem_map] at hf
    obtain ⟨l, ⟨e, he, rfl⟩, hfl⟩ := hf
    obtain ⟨p, k⟩ := e
    cases k with
    | symlink => simp at hfl
    | dir => simp at hfl
    | file =>
      simp only at hfl
      by_cases hcat : is_category_folder t p
      · rw [if_pos hcat] at hfl
        simp at hfl
      · rw [if_neg hcat] at hfl
        simp only [List.mem_singleton] at hfl
        subst hfl
        obtain ⟨hmem, hne, hdl⟩ := mem_readDir.mp he
        exact ⟨hmem, hne, hdl, Bool.eq_false_iff.mpr hcat⟩
  · intro ⟨hmem, hne, hdl, hcat⟩
    rw [collectAux]
    simp only [List.mem_flatten, List.mem_map]
    refine ⟨_, ⟨Entry.mk f .file, mem_readDir.mpr ⟨hmem, hne, hdl⟩, rfl⟩, ?_⟩
    simp only
    rw [if_neg (Bool.eq_false_iff.mp hcat)]
    exact List.mem_singleton.mpr rfl

/-- Membership characterisation of the recursive traversal from directory
`d`: exactly the (non-symlink) file entries below `d`, reachable within
`fuel` levels, all of whose intermediate directories exist as directory
entries and carry no category folder name, and which do not themselves sit
in a category folder directly under the target. -/
theorem mem_collectAux_rec (fs : FS) (t : FsPath) :
    ∀ (fuel : Nat) (d f : FsPath),
      f ∈ collectAux fs t true fuel d ↔
        (Entry.mk f .file ∈ fs ∧ f.take d.length = d ∧
         d.length < f.length ∧ f.length ≤ d.length + fuel ∧
         is_category_folder t f = false ∧
         ∀ i, d.length < i → i < f.length →
           Entry.mk (f.take i) .dir ∈ fs ∧
           catNames.contains (lastName (f.take i)) = false) := by
  intro fuel
  induction fuel with
  | zero =>
    intro d f
    rw [collectAux]
    constructor
    · intro h
      exact absurd h (List.not_mem_nil f)
    · intro ⟨_, _, h1, h2, _⟩
      omega
  | succ fuel ih =>
    intro d f
    rw [collectAux]
    simp only [List.mem_flatten, List.mem_map]
    constructor
    · rintro ⟨l, ⟨e, he, rfl⟩, hfl⟩
      obtain ⟨p, k⟩ := e
      obtain ⟨hmem, hne, hdl⟩ := mem_readDir.mp he
      obtain ⟨hplen, hptake⟩ := child_take hne hdl
      dsimp only at hne hdl hplen hptake
      cases k with
      | symlink => simp at hfl
      | file =>
        simp only at hfl
        by_cases hcat : is_category_folder t p
        · rw [if_pos hcat] at hfl
          simp at hfl
        · rw [if_neg hcat] at hfl
          simp only [List.mem_singleton] at hfl
          subst hfl
          refine ⟨hmem, hptake, by omega, by omega,
            Bool.eq_false_iff.mpr hcat, ?_⟩
          intro i hi1 hi2
          omega
      | dir =>
        simp only [if_true] at hfl
        by_cases hcn : catNames.contains (lastName p) = true
        · rw [if_pos hcn] at hfl
          simp at hfl
        · rw [if_neg hcn] at hfl
          obtain ⟨hmem2, htake2, hlt2, hle2, hcat2, hmid2⟩ := (ih p f).mp hfl
          refine ⟨hmem2, ?_, by omega, by omega, hcat2, ?_⟩
          · have hmin : f.take d.length = (f.take p.length).take d.length := by
              rw [List.take_take]
              congr 1
              omega
            rw [hmin, htake2, hptake]
          · intro i hi1 hi2
            by_cases hip : i = p.length
            · subst hip
              rw [htake2]
              exact ⟨hmem, Bool.eq_false_iff.mpr hcn⟩
            · exact hmid2 i (by omega) hi2
    · rintro ⟨hmem, htake, hlt, hle, hcat, hmid⟩
      by_cases hflen : f.length = d.length + 1
      · have hne : f ≠ [] := List.length_pos.mp (by omega)
        have hdl : f.dropLast = d := by
          rw [List.dropLast_eq_take, show f.length - 1 = d.length by omega]
          exact htake
        refine ⟨_, ⟨Entry.mk f .file, mem_readDir.mpr ⟨hmem, hne, hdl⟩, rfl⟩, ?_⟩
        simp only
        rw [if_neg (Bool.eq_false_iff.mp hcat)]
        exact List.mem_singleton.mpr rfl
      · have hgt : d.length + 1 < f.length := by omega
        obtain ⟨hdmem, hdcn⟩ := hmid (d.length + 1) (by omega) hgt
        set d' := f.take (d.length + 1) with hd'
        have hd'len : d'.length = d.length + 1 := by
          rw [hd', List.length_take]
          omega
        have hd'ne : d' ≠ [] := List.length_pos.mp (by omega)
        have hd'dl : d'.dropLast = d := by
          rw [List.dropLast_eq_take, show d'.length - 1 = d.length by omega]
          rw [hd', List.take_take, show min d.length (d.length + 1) = d.length
            by omega]
          exact htake
        refine ⟨_, ⟨Entry.mk d' .dir,
          mem_readDir.mpr ⟨hdmem, hd'ne, hd'dl⟩, rfl⟩, ?_⟩
        simp only [if_true]
        rw [if_neg (Bool.eq_false_iff.mp hdcn)]
        apply (ih d' f).mpr
        refine ⟨hmem, ?_, by omega, by omega, hcat, ?_⟩
        · rw [hd'len]
        · intro i hi1 hi2
          exact hmid i (by omega) hi2

theorem length_le_maxPathLen {fs : FS} {e : Entry} (h : e ∈ fs) :
    e.path.length ≤ maxPathLen fs := by
  induction fs with
  | nil => simp at h
  | cons a l ih =>
    have hm : maxPathLen (a :: l) = max a.path.length (maxPathLen l) := rfl
    rcases List.mem_cons.mp h with h1 | h2
    · subst h1
      rw [hm]
      exact Nat.le_max_left _ _
    · rw [hm]
      exact le_trans (ih h2) (Nat.le_max_right _ _)

/-- C8 helper, non-recursive mode: `collect_files` returns exactly the
immediate non-symlink file children of the target. -/
theorem mem_collect_files_nonrec (fs : FS) (t f : FsPath) :
    f ∈ collect_files fs t false ↔
      Entry.mk f .file ∈ fs ∧ f ≠ [] ∧ f.dropLast = t := by
  rw [collect_files, mem_collectAux_nonrec]
  constructor
  · intro ⟨h1, h2, h3, _⟩
    exact ⟨h1, h2, h3⟩
  · intro ⟨h1, h2, h3⟩
    exact ⟨h1, h2, h3, is_category_folder_child h3⟩

/-- C8 helper, recursive mode: `collect_files` returns exactly the
non-symlink file entries strictly below the target all of whose
intermediate parent directories (at any depth, not only the top level)
exist as directory entries and carry no category folder name. -/
theorem mem_collect_files_rec (fs : FS) (t f : FsPath) :
    f ∈ collect_files fs t true ↔
      Entry.mk f .file ∈ fs ∧ f.take t.length = t ∧ t.length < f.length ∧
      ∀ i, t.length < i → i < f.length →
        Entry.mk (f.take i) .dir ∈ fs ∧
        catNames.contains (lastName (f.take i)) = false := by
  rw [collect_files, mem_collectAux_rec]
  constructor
  · intro ⟨h1, h2, h3, _, _, h6⟩
    exact ⟨h1, h2, h3, h6⟩
  · intro ⟨h1, h2, h3, h6⟩
    have hlen : f.length ≤ maxPathLen fs := length_le_maxPathLen h1
    refine ⟨h1, h2, h3, by omega, ?_, h6⟩
    cases hcat : is_category_folder t f with
    | false => rfl
    | true =>
      exfalso
      unfold is_category_folder at hcat
      cases hgl : (f.dropLast).getLast? with
      | none =>
        rw [hgl] at hcat
        exact Bool.noConfusion hcat
      | some name =>
        rw [hgl] at hcat
        obtain ⟨hdd, hcn⟩ := Bool.and_eq_true_iff.mp hcat
        have hddeq : f.dropLast.dropLast = t := of_decide_eq_true hdd
        have hfne : f.dropLast ≠ [] := by
          intro h
          rw [h] at hgl
          simp at hgl
        have hf2 : 2 ≤ f.length := by
          have h1' : 0 < f.dropLast.length := List.length_pos.mpr hfne
          have h2' := List.length_dropLast f
          omega
        have hteq : t.length = f.length - 2 := by
          have ha := congrArg List.length hddeq
          rw [List.length_dropLast, List.length_dropLast] at ha
          omega
        have hi := h6 (f.length - 1) (by omega) (by omega)
        rw [show f.take (f.length - 1) = f.dropLast from
          (List.dropLast_eq_take f).symm] at hi
        have hname : lastName f.dropLast = name := by
          rw [lastName, hgl]
          rfl
        rw [hname] at hi
        rw [hi.2] at hcn
        exact Bool.noConfusion hcn

/-- C2: the execute (non-recursive) run on the scenario tree moves
`doc.pdf` to `Documents/doc.pdf`, `note` to `Others/note`, and `photo.jpg`
to `Images/photo_1.jpg` (renamed), with statistics `moved_files = 3`,
`renamed_files = 1`, `error_count = 0`; the original top-level files are
gone. -/
theorem execute_scenario_photo_doc_note :
    runSorter fs0C2 ⟨["r"], false, false⟩ 0 =
      .ok (⟨3, 3, 1, 0, 0,
        [(Category.Images, 1), (Category.Documents, 1),
         (Category.Others, 1)]⟩, fs1C2) ∧
    Entry.mk ["r", "Documents", "doc.pdf"] .file ∈ fs1C2 ∧
    Entry.mk ["r", "Others", "note"] .file ∈ fs1C2 ∧
    Entry.mk ["r", "Images", "photo_1.jpg"] .file ∈ fs1C2 ∧
    Entry.mk ["r", "photo.jpg"] .file ∉ fs1C2 ∧
    Entry.mk ["r", "doc.pdf"] .file ∉ fs1C2 ∧
    Entry.mk ["r", "note"] .file ∉ fs1C2 :=
  ⟨rfl, by decide, by decide, by decide, by decide, by decide, by decide⟩

/-- C8 counterexample: the claim restricts the category-folder exclusion to
top-level subdirectories of the target, so it predicts that in this tree —
which has no symlinks and no top-level category folder at all — the
descendant file `r/sub/Images/x.txt` is collected in recursive mode.  The
code skips directories named like category folders at every depth, and the
file is not collected. -/
theorem collect_files_top_level_only_cex :
    (Entry.mk ["r", "sub", "Images", "x.txt"] .file ∈ cexFS) ∧
    (∀ e ∈ cexFS, e.kind ≠ .symlink) ∧
    (∀ e ∈ cexFS, e.path.dropLast = ["r"] →
      catNames.contains (lastName e.path) = false) ∧
    ["r", "sub", "Images", "x.txt"] ∉ collect_files cexFS ["r"] true := by
  refine ⟨by decide, by decide, by decide, by decide⟩

/-- C8 (amended): non-recursive collection returns exactly the target's
immediate (non-symlink) file children; recursive collection returns exactly
the (non-symlink) descendant files all of whose intermediate parent
directories below the target exist as real (non-symlink) directory entries
and carry a name that is not a category folder name — so directories named
like category folders are excluded at every depth, not only directly under
the target. -/
theorem collect_files_characterization (fs : FS) (t f : FsPath) :
    (f ∈ collect_files fs t false ↔
      Entry.mk f .file ∈ fs ∧ f ≠ [] ∧ f.dropLast = t) ∧
    (f ∈ collect_files fs t true ↔
      Entry.mk f .file ∈ fs ∧ f.take t.length = t ∧ t.length < f.length ∧
      ∀ i, t.length < i → i < f.length →
        Entry.mk (f.take i) .dir ∈ fs ∧
        catNames.contains (lastName (f.take i)) = false) :=
  ⟨mem_collect_files_nonrec fs t f, mem_collect_files_rec fs t f⟩

/-- C9: when an execute run succeeds on a tree, any file sitting directly
inside a top-level category folder of the resulting tree — in particular
every file the run relocated there — is not collected by the traversal of
an immediately repeated Run in either mode, so the second run plans and
moves none of them. -/
theorem second_run_skips_relocated (fs fs1 : FS) (t : FsPath) (rec : Bool)
    (ts : Nat) (s : SortStats)
    (hrun : runSorter fs ⟨t, false, rec⟩ ts = .ok (s, fs1))
    (c : Category) (p : FsPath)
    (hp : p.dropLast = t ++ [Category.folder_name c]) :
    p ∉ collect_files fs1 t rec := by
  intro hmem
  cases rec with
  | false =>
    obtain ⟨_, _, hdl⟩ := (mem_collect_files_nonrec fs1 t p).mp hmem
    rw [hp] at hdl
    have hlen := congrArg List.length hdl
    simp at hlen
  | true =>
    obtain ⟨_, htake, hlt, hmid⟩ := (mem_collect_files_rec fs1 t p).mp hmem
    have hpne : p ≠ [] := by
      intro h
      rw [h] at hp
      simp at hp
    have hplen : p.length = t.length + 2 := by
      have h1 := congrArg List.length hp
      rw [List.length_dropLast] at h1
      simp at h1
      have h2 : 0 < p.length := List.length_pos.mpr hpne
      omega
    have hi := hmid (t.length + 1) (by omega) (by omega)
    have htk : p.take (t.length + 1) = p.dropLast := by
      rw [List.dropLast_eq_take, show p.length - 1 = t.length + 1 by omega]
    rw [htk, hp] at hi
    have hlast : lastName (t ++ [Category.folder_name c])
        = Category.folder_name c := by
      rw [lastName]
      simp
    rw [hlast] at hi
    have hcontra := hi.2
    rw [catNames_contains_folder c] at hcontra
    exact Bool.noConfusion hcontra

theorem second_run_skips_relocated_witness :
    ["q", "Documents", "a.txt"] ∉
      collect_files
        [⟨["q"], .dir⟩, ⟨["q", "Documents"], .dir⟩,
         ⟨["q", "Documents", "a.txt"], .file⟩] ["q"] false :=
  second_run_skips_relocated
    [⟨["q"], .dir⟩, ⟨["q", "a.txt"], .file⟩]
    [⟨["q"], .dir⟩, ⟨["q", "Documents"], .dir⟩,
     ⟨["q", "Documents", "a.txt"], .file⟩]
    ["q"] false 0
    ⟨1, 1, 0, 0, 0, [(Category.Documents, 1)]⟩ rfl
    Category.Documents ["q", "Documents", "a.txt"] (by decide)

theorem dry_fold_tree (target : FsPath) (ts : Nat) :
    ∀ (plans : List FilePlan) (st : (SortStats × List (FsPath × FsPath)) × FS),
      (List.foldl (dryStep target ts) st plans).2 = st.2 := by
  intro plans
  induction plans with
  | nil =>
    intro st
    rfl
  | cons p l ih =>
    intro st
    rw [List.foldl_cons, ih]
    rfl

theorem dry_fold_skipped (target : FsPath) (ts : Nat) :
    ∀ (plans : List FilePlan) (st : (SortStats × List (FsPath × FsPath)) × FS),
      (List.foldl (dryStep target ts) st plans).1.1.skipped_files
        = st.1.1.skipped_files := by
  intro plans
  induction plans with
  | nil =>
    intro st
    rfl
  | cons p l ih =>
    intro st
    rw [List.foldl_cons, ih]
    cases hc : p.has_conflict <;> simp [dryStep, hc]

theorem exec_fold_skipped (target : FsPath) (ts : Nat) :
    ∀ (plans : List FilePlan) (st : SortStats × FS),
      (List.foldl (execStep target ts) st plans).1.skipped_files
        = st.1.skipped_files := by
  intro plans
  induction plans with
  | nil =>
    intro st
    rfl
  | cons p l ih =>
    intro st
    rw [List.foldl_cons, ih]
    unfold execStep
    cases hmv : move_file_with_dedup st.2 ts p.source
        (target ++ [p.category.folder_name]) with
    | ok r =>
      obtain ⟨result, fs'⟩ := r
      simp only [hmv]
    | error e => simp only [hmv]

theorem exec_fold_accounting (target : FsPath) (ts : Nat) :
    ∀ (plans : List FilePlan) (st : SortStats × FS),
      (List.foldl (execStep target ts) st plans).1.moved_files
        + (List.foldl (execStep target ts) st plans).1.error_count
        = st.1.moved_files + st.1.error_count + plans.length := by
  intro plans
  induction plans with
  | nil =>
    intro st
    simp
  | cons p l ih =>
    intro st
    rw [List.foldl_cons, ih]
    unfold execStep
    cases hmv : move_file_with_dedup st.2 ts p.source
        (target ++ [p.category.folder_name]) with
    | ok r =>
      obtain ⟨result, fs'⟩ := r
      simp only [hmv, List.length_cons]
      omega
    | error e =>
      simp only [hmv, List.length_cons]
      omega

/-- C6: in execute mode a failing per-file move bumps `error_count`, leaves
the tree unchanged, and the loop simply continues with the remaining plans;
and over any plan list each plan contributes to exactly one of
`moved_files` or `error_count`, whose sum equals the number of plans — the
run attempts every planned file exactly once and a single failure never
aborts the batch. -/
theorem execute_move_error_isolation :
    (∀ (target : FsPath) (ts : Nat) (st : SortStats × FS) (plan : FilePlan)
        (l : List FilePlan) (e : String),
      move_file_with_dedup st.2 ts plan.source
          (target ++ [plan.category.folder_name]) = .error e →
      List.foldl (execStep target ts) st (plan :: l)
        = List.foldl (execStep target ts)
            ({ st.1 with error_count := st.1.error_count + 1 }, st.2) l) ∧
    (∀ (fs : FS) (target : FsPath) (ts : Nat) (plans : List FilePlan),
      (execute_move fs target ts plans).1.moved_files
        + (execute_move fs target ts plans).1.error_count
        = plans.length) := by
  constructor
  · intro target ts st plan l e h
    rw [List.foldl_cons]
    congr 1
    unfold execStep
    simp only [h]
  · intro fs target ts plans
    unfold execute_move
    rw [exec_fold_accounting target ts plans]
    simp [SortStats.init]

theorem execute_move_error_isolation_witness :
    List.foldl (execStep ["t"] 0)
        (SortStats.init 1, ([⟨["t"], .dir⟩] : FS))
        [⟨["t", "missing.txt"], ["t", "Others", "missing.txt"],
          Category.Others, false⟩]
      = List.foldl (execStep ["t"] 0)
          ({ SortStats.init 1 with error_count :=
              (SortStats.init 1).error_count + 1 }, ([⟨["t"], .dir⟩] : FS)) []
    ∧ (execute_move [⟨["t"], .dir⟩] ["t"] 0
        [⟨["t", "missing.txt"], ["t", "Others", "missing.txt"],
          Category.Others, false⟩]).1.moved_files
      + (execute_move [⟨["t"], .dir⟩] ["t"] 0
        [⟨["t", "missing.txt"], ["t", "Others", "missing.txt"],
          Category.Others, false⟩]).1.error_count = 1 :=
  ⟨execute_move_error_isolation.1 ["t"] 0
      (SortStats.init 1, [⟨["t"], .dir⟩])
      ⟨["t", "missing.txt"], ["t", "Others", "missing.txt"],
        Category.Others, false⟩ [] "move failed" rfl,
   execute_move_error_isolation.2 [⟨["t"], .dir⟩] ["t"] 0 _⟩

/-- C5: a simulate run never mutates the tree: the dry-run executor hands
back the tree it was given unchanged, for every tree and plan list — even
when conflicts are flagged and `generate_unique_path` is consulted for the
preview — and a whole `run` in dry-run mode that returns `ok` returns the
unchanged input tree. -/
theorem dry_run_preserves_filesystem :
    (∀ (fs : FS) (target : FsPath) (ts : Nat) (plans : List FilePlan),
      (execute_dry_run fs target ts plans).2 = fs) ∧
    (∀ (fs : FS) (cfg : SorterConfig) (ts : Nat) (s : SortStats) (fs' : FS),
      cfg.dry_run = true → runSorter fs cfg ts = .ok (s, fs') →
      fs' = fs) := by
  constructor
  · intro fs target ts plans
    exact dry_fold_tree target ts plans _
  · intro fs cfg ts s fs' hdry hrun
    unfold runSorter at hrun
    split at hrun
    · exact Except.noConfusion hrun
    split at hrun
    · exact Except.noConfusion hrun
    split at hrun
    · simp only [Except.ok.injEq, Prod.mk.injEq] at hrun
      exact hrun.2.symm
    simp only [Except.ok.injEq, Prod.mk.injEq] at hrun
    rw [← hrun.2]
    exact dry_fold_tree _ _ _ _

theorem dry_run_preserves_filesystem_witness :
    (execute_dry_run [⟨["p"], .dir⟩, ⟨["p", "x.txt"], .file⟩] ["p"] 0 []).2
      = [⟨["p"], .dir⟩, ⟨["p", "x.txt"], .file⟩] ∧
    ([⟨["p"], .dir⟩, ⟨["p", "x.txt"], .file⟩] : FS)
      = [⟨["p"], .dir⟩, ⟨["p", "x.txt"], .file⟩] :=
  ⟨dry_run_preserves_filesystem.1
     [⟨["p"], .dir⟩, ⟨["p", "x.txt"], .file⟩] ["p"] 0 [],
   dry_run_preserves_filesystem.2
     [⟨["p"], .dir⟩, ⟨["p", "x.txt"], .file⟩] ⟨["p"], true, false⟩ 0
     ⟨1, 1, 0, 0, 0, [(Category.Documents, 1)]⟩
     [⟨["p"], .dir⟩, ⟨["p", "x.txt"], .file⟩] rfl rfl⟩

/-- C10: the `skipped_files` counter is never incremented: for every tree
and plan list the dry-run executor and the execute executor return
statistics with `skipped_files = 0`, and so does every whole run that
returns `ok` — although the `SortStats` record defines the field, nothing
but the summary printer ever touches it. -/
theorem skipped_files_always_zero :
    (∀ (fs : FS) (target : FsPath) (ts : Nat) (plans : List FilePlan),
      (execute_dry_run fs target ts plans).1.1.skipped_files = 0) ∧
    (∀ (fs : FS) (target : FsPath) (ts : Nat) (plans : List FilePlan),
      (execute_move fs target ts plans).1.skipped_files = 0) ∧
    (∀ (fs : FS) (cfg : SorterConfig) (ts : Nat) (s : SortStats) (fs' : FS),
      runSorter fs cfg ts = .ok (s, fs') → s.skipped_files = 0) := by
  refine ⟨?_, ?_, ?_⟩
  · intro fs target ts plans
    unfold execute_dry_run
    exact dry_fold_skipped target ts plans _
  · intro fs target ts plans
    unfold execute_move
    rw [exec_fold_skipped]
    rfl
  · intro fs cfg ts s fs' hrun
    unfold runSorter at hrun
    split at hrun
    · exact Except.noConfusion hrun
    split at hrun
    · exact Except.noConfusion hrun
    split at hrun
    · simp only [Except.ok.injEq, Prod.mk.injEq] at hrun
      rw [← hrun.1]
      rfl
    split at hrun
    · simp only [Except.ok.injEq, Prod.mk.injEq] at hrun
      rw [← hrun.1]
      unfold execute_dry_run
      exact dry_fold_skipped _ _ _ _
    · simp only [Except.ok.injEq] at hrun
      have hs := congrArg Prod.fst hrun
      dsimp only at hs
      rw [← hs]
      unfold execute_move
      rw [exec_fold_skipped]
      rfl

theorem skipped_files_always_zero_witness :
    (execute_dry_run [⟨["p"], .dir⟩] ["p"] 0 []).1.1.skipped_files = 0 ∧
    (execute_move [⟨["p"], .dir⟩] ["p"] 0 []).1.skipped_files = 0 ∧
    (⟨1, 1, 0, 0, 0, [(Category.Documents, 1)]⟩ : SortStats).skipped_files
      = 0 :=
  ⟨skipped_files_always_zero.1 [⟨["p"], .dir⟩] ["p"] 0 [],
   skipped_files_always_zero.2.1 [⟨["p"], .dir⟩] ["p"] 0 [],
   skipped_files_always_zero.2.2 [⟨["q"], .dir⟩, ⟨["q", "a.txt"], .file⟩]
     ⟨["q"], false, false⟩ 0 ⟨1, 1, 0, 0, 0, [(Category.Documents, 1)]⟩
     [⟨["q"], .dir⟩, ⟨["q", "Documents"], .dir⟩,
      ⟨["q", "Documents", "a.txt"], .file⟩] rfl⟩
